import Mathlib

/-!
Verification of the specmonkey crawl-filter-aggregate pipeline.

This file shallowly embeds the core of the repository:
  - `URLCrawler::filter_domains` (src/url_crawler.rs): whitelist-based domain
    filtering of candidate URLs;
  - `URLCrawler::find_urls_in_stream`, `find_urls_in_file`, `find`
    (src/url_crawler.rs): line-oriented URL scanning and per-file crawling;
  - `Index::from_raw_data` (src/index.rs): grouping of links by domain and
    URL fragment;
  - the extension filter of `gather_files` (src/util.rs).

External crates are modelled as oracles passed in as parameters:
  - the `url` crate's `Url::parse(..).host_str()` chain becomes a parameter
    `parseHost : String → Option String` (`none` means the URL failed to
    parse as an absolute URL or has no host);
  - the `linkify` crate's `LinkFinder::links` becomes a parameter
    `finder : String → List String` returning the URL-shaped substrings of a
    line in left-to-right order;
  - the file system becomes a parameter
    `fs : String → Option (List (Option String))` (`none` means the file
    cannot be opened; each line is `Option String`, `none` being a read or
    decode error, mirroring `io::Result<String>` from `BufRead::lines`).

Rust `String` is embedded as Lean `String`; nested `HashMap`s are embedded
as their lookup functions (total functions from keys to bucket contents).
-/

namespace SpecMonkey

/-- Embeds Rust `str::to_lowercase` (per-character lowercasing; hosts and
domains are ASCII here, where `Char.toLower` agrees with Rust). -/
def lowercase (s : String) : String :=
  String.mk (s.data.map Char.toLower)

/-- Embeds Rust `str::ends_with`. -/
def ends_with (s suffix : String) : Bool :=
  suffix.data.isSuffixOf s.data

/-- The per-entry whitelist test of `URLCrawler::filter_domains`
(src/url_crawler.rs line 115): the entry equals the lowercased host, or the
lowercased host ends with `"." + entry`. -/
def domain_matches (domain host_lowercase : String) : Bool :=
  domain == host_lowercase ||
    ends_with host_lowercase (String.append (".") domain)

/-- Embeds `URLCrawler::filter_domains` (src/url_crawler.rs lines 99-126).
`whitelist_domains` is the stored (already lowercased) whitelist;
`parseHost` is the `url` crate oracle as described in the file header. -/
def filter_domains (whitelist_domains : List String)
    (parseHost : String → Option String) (url_string : String)
    (line_number : Nat) : Option (String × String × Nat) :=
  match parseHost url_string with
  | some host =>
      let host_lowercase := lowercase host
      if whitelist_domains.isEmpty then
        some (url_string, host_lowercase, line_number)
      else
        (whitelist_domains.findSome? (fun domain =>
            if domain_matches domain host_lowercase then some domain
            else none)).map
          (fun domain => (url_string, domain, line_number))
  | none => none

theorem findSome_guard_of_exists {α : Type} {p : α → Bool} :
    ∀ {l : List α}, (∃ a ∈ l, p a = true) →
      ∃ a ∈ l, p a = true ∧
        l.findSome? (fun a => if p a then some a else none) = some a := by
  intro l h
  induction l with
  | nil => obtain ⟨a, ha, _⟩ := h; cases ha
  | cons b l ih =>
      by_cases hb : p b = true
      · exact ⟨b, List.mem_cons_self b l, hb, by
          simp [List.findSome?_cons, hb]⟩
      · obtain ⟨a, ha, hpa⟩ := h
        rcases List.mem_cons.mp ha with rfl | ha'
        · exact absurd hpa hb
        · obtain ⟨c, hc, hpc, hfind⟩ := ih ⟨a, ha', hpa⟩
          exact ⟨c, List.mem_cons_of_mem _ hc, hpc, by
            simp [List.findSome?_cons, hb, hfind]⟩

theorem findSome_guard_of_forall {α : Type} {p : α → Bool} :
    ∀ {l : List α}, (∀ a ∈ l, p a = false) →
      l.findSome? (fun a => if p a then some a else none) = none := by
  intro l h
  induction l with
  | nil => rfl
  | cons b l ih =>
      have hb : p b = false := h b (List.mem_cons_self b l)
      simp [List.findSome?_cons, hb]
      exact fun a ha => h a (List.mem_cons_of_mem _ ha)

theorem filter_domains_finds_match (wl : List String)
    (parseHost : String → Option String) (url host : String) (line : Nat)
    (hp : parseHost url = some host) (hne : wl ≠ [])
    (hex : ∃ d ∈ wl, domain_matches d (lowercase host) = true) :
    ∃ d ∈ wl, domain_matches d (lowercase host) = true ∧
      filter_domains wl parseHost url line = some (url, d, line) := by
  obtain ⟨w, ws, rfl⟩ := List.exists_cons_of_ne_nil hne
  obtain ⟨d, hd, hm, hfind⟩ := findSome_guard_of_exists hex
  refine ⟨d, hd, hm, ?_⟩
  simp [filter_domains, hp, hfind]

theorem filter_domains_rejects_of_no_match (wl : List String)
    (parseHost : String → Option String) (url host : String) (line : Nat)
    (hp : parseHost url = some host) (hne : wl ≠ [])
    (hall : ∀ d ∈ wl, domain_matches d (lowercase host) = false) :
    filter_domains wl parseHost url line = none := by
  obtain ⟨w, ws, rfl⟩ := List.exists_cons_of_ne_nil hne
  simp [filter_domains, hp, findSome_guard_of_forall hall]

/-- C1: with a non-empty whitelist, `filter_domains` accepts a URL whose
lowercased host equals a whitelist entry or ends with `"." + entry`,
returning a matching whitelist entry (not the raw host) as the matched
domain, and rejects a URL whose lowercased host matches no entry. -/
theorem filter_domains_whitelist_correct (wl : List String)
    (parseHost : String → Option String) (url host : String) (line : Nat)
    (hp : parseHost url = some host) (hne : wl ≠ []) :
    ((∃ d ∈ wl, domain_matches d (lowercase host) = true) →
      ∃ d ∈ wl, domain_matches d (lowercase host) = true ∧
        filter_domains wl parseHost url line = some (url, d, line)) ∧
    ((∀ d ∈ wl, domain_matches d (lowercase host) = false) →
      filter_domains wl parseHost url line = none) :=
  ⟨filter_domains_finds_match wl parseHost url host line hp hne,
   filter_domains_rejects_of_no_match wl parseHost url host line hp hne⟩

/-- C1 witness: `https://sub.example.com` is accepted against whitelist
`{example.com}` with matched domain `example.com`, and
`https://notexample.com` is rejected against the same whitelist. -/
theorem filter_domains_whitelist_correct_witness :
    ((∃ d ∈ (["example.com"] : List String),
        domain_matches d (lowercase ("sub.example.com")) = true) →
      ∃ d ∈ (["example.com"] : List String),
        domain_matches d (lowercase ("sub.example.com")) = true ∧
          filter_domains ["example.com"] (fun _ => some ("sub.example.com"))
            ("https://sub.example.com") 1 =
            some (("https://sub.example.com"), d, 1)) ∧
    filter_domains ["example.com"] (fun _ => some ("notexample.com"))
      ("https://notexample.com") 2 = none :=
  ⟨(filter_domains_whitelist_correct ["example.com"]
      (fun _ => some ("sub.example.com")) ("https://sub.example.com")
      ("sub.example.com") 1 rfl (by decide)).1,
   (filter_domains_whitelist_correct ["example.com"]
      (fun _ => some ("notexample.com")) ("https://notexample.com")
      ("notexample.com") 2 rfl (by decide)).2 (by decide)⟩

/-- C2: with an empty whitelist, `filter_domains` accepts every URL that
parses with a host, returning the lowercased host as the matched domain. -/
theorem filter_domains_empty_whitelist (parseHost : String → Option String)
    (url host : String) (line : Nat) (hp : parseHost url = some host) :
    filter_domains [] parseHost url line = some (url, lowercase host, line) := by
  simp [filter_domains, hp]

/-- C2 witness: with an empty whitelist, `https://Example.COM` is accepted
with matched domain `example.com`. -/
theorem filter_domains_empty_whitelist_witness :
    filter_domains [] (fun _ => some ("Example.COM")) ("https://Example.COM") 5 =
      some (("https://Example.COM"), ("example.com"), 5) := by
  have h := filter_domains_empty_whitelist (fun _ => some ("Example.COM"))
    ("https://Example.COM") ("Example.COM") 5 rfl
  rw [h]
  decide

/-- C6 counterexample: against whitelist `["b.com", "a.b.com"]` the host
`a.b.com` exactly equals the entry `a.b.com`, yet `filter_domains` returns
`b.com` (the earlier entry, matched by suffix), not the exactly-equal
entry: whitelist order, not exact equality, decides which entry is
returned. -/
theorem exact_equality_no_precedence_cex :
    ("a.b.com" ∈ (["b.com", "a.b.com"] : List String)) ∧
    ("a.b.com" = lowercase ("a.b.com")) ∧
    filter_domains ["b.com", "a.b.com"] (fun _ => some ("a.b.com"))
      ("https://a.b.com") 7 = some (("https://a.b.com"), ("b.com"), 7) ∧
    ¬ filter_domains ["b.com", "a.b.com"] (fun _ => some ("a.b.com"))
      ("https://a.b.com") 7 = some (("https://a.b.com"), ("a.b.com"), 7) := by
  refine ⟨by decide, by decide, ?_, ?_⟩ <;> decide

/-- C6 amended: with a non-empty whitelist, a URL whose lowercased host
exactly equals some whitelist entry is always accepted, and the matched
domain is some whitelist entry matching by equality or suffix; the
exactly-equal entry itself is returned whenever it is the only matching
entry (in general the first matching entry in whitelist order is returned,
which may be an earlier suffix-matching entry rather than the exactly-equal
one). -/
theorem filter_domains_exact_equality (wl : List String)
    (parseHost : String → Option String) (url host : String) (line : Nat)
    (hp : parseHost url = some host) (d : String) (hd : d ∈ wl)
    (heq : d = lowercase host) :
    (∃ e ∈ wl, domain_matches e (lowercase host) = true ∧
      filter_domains wl parseHost url line = some (url, e, line)) ∧
    ((∀ e ∈ wl, domain_matches e (lowercase host) = true → e = d) →
      filter_domains wl parseHost url line = some (url, d, line)) := by
  have hne : wl ≠ [] := List.ne_nil_of_mem hd
  have hmd : domain_matches d (lowercase host) = true := by
    simp [domain_matches, heq]
  have hacc := filter_domains_finds_match wl parseHost url host line
    hp hne ⟨d, hd, hmd⟩
  refine ⟨hacc, ?_⟩
  intro huniq
  obtain ⟨e, he, hme, hfe⟩ := hacc
  rwa [huniq e he hme] at hfe

/-- C6 amended witness: against the single-entry whitelist `{example.com}`
the host `EXAMPLE.com` (exact match after lowercasing) is accepted with
matched domain `example.com`. -/
theorem filter_domains_exact_equality_witness :
    ("example.com" ∈ (["example.com"] : List String)) ∧
    ("example.com" = lowercase ("EXAMPLE.com")) ∧
    filter_domains ["example.com"] (fun _ => some ("EXAMPLE.com"))
      ("https://EXAMPLE.com/x") 3 =
      some (("https://EXAMPLE.com/x"), ("example.com"), 3) :=
  ⟨by decide, by decide,
    (filter_domains_exact_equality ["example.com"]
      (fun _ => some ("EXAMPLE.com")) ("https://EXAMPLE.com/x")
      ("EXAMPLE.com") 3 rfl ("example.com") (by decide) (by decide)).2
      (by decide)⟩

/-- Embeds `Link` (src/url_crawler.rs lines 10-15): one matched URL
occurrence. -/
structure Link where
  url : String
  domain : String
  filepath : String
  line_number : Nat
deriving DecidableEq

/-- Embeds Rust `str::split("#")` on the character list of a string: the
list of parts between `#` separators, left to right.  Always non-empty;
`[cs]` when `cs` has no `#`. -/
def splitHash : List Char → List (List Char)
  | [] => [[]]
  | c :: cs =>
    match splitHash cs with
    | [] => [[]]
    | p :: ps => if c = '#' then [] :: p :: ps else (c :: p) :: ps

/-- Embeds the fragment derivation of `Index::from_raw_data`
(src/index.rs lines 12-21): split the URL on `#`; if more than one part
results the fragment is the last part, otherwise it defaults to `""`. -/
def fragmentOf (url : String) : String :=
  let parts := splitHash url.data
  ((if parts.length > 1 then parts.getLast? else none).map
      (fun p => String.mk p)).getD ("")

/-- Modelled from the spec's words for comparison with `fragmentOf`: the
substring after the last `#` of the URL, or `""` when no `#` occurs. -/
def afterLastHash (cs : List Char) : List Char :=
  (cs.reverse.takeWhile (fun c => c != '#')).reverse

/-- Modelled from the spec's words for comparison with `fragmentOf`:
"`fragment` is the substring after the last `#` in a URL, or the empty
string if none is present." -/
def fragment_spec (url : String) : String :=
  if '#' ∈ url.data then String.mk (afterLastHash url.data) else ("")

theorem splitHash_ne_nil (cs : List Char) : splitHash cs ≠ [] := by
  cases cs with
  | nil => simp [splitHash]
  | cons c cs =>
      simp only [splitHash]
      cases splitHash cs with
      | nil => simp
      | cons p ps => by_cases h : c = '#' <;> simp [h]

theorem splitHash_of_no_hash : ∀ {cs : List Char}, '#' ∉ cs →
    splitHash cs = [cs] := by
  intro cs h
  induction cs with
  | nil => rfl
  | cons c cs ih =>
      have hc : c ≠ '#' := fun hc => h (hc ▸ List.mem_cons_self c cs)
      have hcs : '#' ∉ cs := fun hm => h (List.mem_cons_of_mem _ hm)
      simp only [splitHash, ih hcs]
      simp [hc]

theorem two_le_length_splitHash : ∀ {cs : List Char}, '#' ∈ cs →
    2 ≤ (splitHash cs).length := by
  intro cs h
  induction cs with
  | nil => cases h
  | cons c cs ih =>
      rcases hsp : splitHash cs with _ | ⟨p, ps⟩
      · exact absurd hsp (splitHash_ne_nil cs)
      · by_cases hc : c = '#'
        · simp [splitHash, hsp, hc]
        · rcases List.mem_cons.mp h with hch | hcs
          · exact absurd hch.symm hc
          · have := ih hcs
            rw [hsp] at this
            simp only [splitHash, hsp, if_neg hc]
            simpa using this

theorem takeWhile_of_all {α : Type} (q : α → Bool) :
    ∀ (l : List α), (∀ x ∈ l, q x = true) → l.takeWhile q = l := by
  intro l h
  induction l with
  | nil => rfl
  | cons a l ih =>
      rw [List.takeWhile_cons, if_pos (h a (List.mem_cons_self a l)),
        ih (fun x hx => h x (List.mem_cons_of_mem _ hx))]

theorem takeWhile_append_of_stop {α : Type} (q : α → Bool) :
    ∀ (l l' : List α), (∃ x ∈ l, q x = false) →
      (l ++ l').takeWhile q = l.takeWhile q := by
  intro l l' h
  induction l with
  | nil => obtain ⟨x, hx, _⟩ := h; cases hx
  | cons a l ih =>
      cases hqa : q a with
      | false => simp [List.takeWhile_cons, hqa]
      | true =>
          obtain ⟨x, hx, hqx⟩ := h
          rcases List.mem_cons.mp hx with rfl | hx'
          · rw [hqa] at hqx; cases hqx
          · simp [List.takeWhile_cons, hqa, ih ⟨x, hx', hqx⟩]

theorem takeWhile_append_of_all {α : Type} (q : α → Bool) :
    ∀ (l l' : List α), (∀ x ∈ l, q x = true) →
      (l ++ l').takeWhile q = l ++ l'.takeWhile q := by
  intro l l' h
  induction l with
  | nil => rfl
  | cons a l ih =>
      simp [List.takeWhile_cons, h a (List.mem_cons_self a l),
        ih (fun x hx => h x (List.mem_cons_of_mem _ hx))]

theorem takeWhile_append_hash (cs : List Char) :
    (cs ++ ['#']).takeWhile (fun c => c != '#') =
      cs.takeWhile (fun c => c != '#') := by
  by_cases h : '#' ∈ cs
  · exact takeWhile_append_of_stop _ cs ['#'] ⟨'#', h, by decide⟩
  · have hall : ∀ x ∈ cs, (fun c => c != '#') x = true := by
      intro x hx
      simp only [bne_iff_ne, ne_eq]
      rintro rfl
      exact h hx
    rw [takeWhile_append_of_all _ cs ['#'] hall, takeWhile_of_all _ cs hall]
    simp [List.takeWhile_cons]

theorem splitHash_getLast? (cs : List Char) :
    (splitHash cs).getLast? = some (afterLastHash cs) := by
  induction cs with
  | nil => rfl
  | cons c cs ih =>
      rcases hsp : splitHash cs with _ | ⟨p, ps⟩
      · exact absurd hsp (splitHash_ne_nil cs)
      · rw [hsp] at ih
        by_cases hc : c = '#'
        · have hfrag : afterLastHash (c :: cs) = afterLastHash cs := by
            unfold afterLastHash
            rw [List.reverse_cons, hc, takeWhile_append_hash]
          simp only [splitHash, hsp, if_pos hc, List.getLast?_cons_cons,
            hfrag]
          exact ih
        · cases ps with
          | nil =>
              have hnh : '#' ∉ cs := by
                intro hmem
                have := two_le_length_splitHash hmem
                rw [hsp] at this
                simp at this
              have hp : p = cs := by
                have := splitHash_of_no_hash hnh
                rw [hsp] at this
                exact (List.cons.injEq p [] cs []).mp this |>.1
              have hall : ∀ x ∈ cs.reverse ++ [c],
                  (fun ch => ch != '#') x = true := by
                intro x hx
                simp only [bne_iff_ne, ne_eq]
                rintro rfl
                rcases List.mem_append.mp hx with hx' | hx'
                · exact hnh (List.mem_reverse.mp hx')
                · simp at hx'; exact hc hx'.symm
              simp only [splitHash, hsp, if_neg hc]
              unfold afterLastHash
              rw [List.reverse_cons, takeWhile_of_all _ _ hall]
              simp [hp]
          | cons p' ps' =>
              have hh : '#' ∈ cs := by
                by_contra hnh
                have := splitHash_of_no_hash hnh
                rw [hsp] at this
                simp at this
              have hfrag : afterLastHash (c :: cs) = afterLastHash cs := by
                unfold afterLastHash
                rw [List.reverse_cons,
                  takeWhile_append_of_stop _ cs.reverse [c]
                    ⟨'#', List.mem_reverse.mpr hh, by decide⟩]
              simp only [splitHash, hsp, if_neg hc, List.getLast?_cons_cons,
                hfrag]
              exact ih

theorem fragmentOf_eq_fragment_spec (url : String) :
    fragmentOf url = fragment_spec url := by
  by_cases h : '#' ∈ url.data
  · have hl : (splitHash url.data).length > 1 := two_le_length_splitHash h
    simp only [fragmentOf, fragment_spec, if_pos hl, if_pos h,
      splitHash_getLast? url.data]
    simp
  · simp only [fragmentOf, fragment_spec, splitHash_of_no_hash h, if_neg h]
    simp

/-- One insertion step of `Index::from_raw_data` (src/index.rs lines
22-27): the nested `HashMap` is embedded as its lookup function, and
`entry(..).or_insert_with(..).push(raw_url)` appends the link to the bucket
keyed by its domain and derived fragment. -/
def insertLink (index : String → String → List Link) (raw_url : Link) :
    String → String → List Link :=
  fun domain fragment =>
    if domain = raw_url.domain ∧ fragment = fragmentOf raw_url.url then
      index domain fragment ++ [raw_url]
    else index domain fragment

/-- Embeds `Index::from_raw_data` (src/index.rs lines 9-29): fold the flat
link collection into the nested grouping, starting from the empty map. -/
def from_raw_data (raw_data : List Link) : String → String → List Link :=
  raw_data.foldl insertLink (fun _ _ => [])

/-- The grouping key a link is stored under: its domain and the fragment
derived from its URL. -/
def linkKey (l : Link) : String × String :=
  (l.domain, fragmentOf l.url)

/-- The keys of the non-empty buckets of the built index: the deduplicated
grouping keys of the input links. -/
def indexKeys (raw_data : List Link) : List (String × String) :=
  (raw_data.map linkKey).dedup

theorem foldl_insertLink (raw : List Link) :
    ∀ (index : String → String → List Link) (d f : String),
      (raw.foldl insertLink index) d f =
        index d f ++ raw.filter
          (fun l => decide (d = l.domain ∧ f = fragmentOf l.url)) := by
  induction raw with
  | nil => intro idx d f; simp
  | cons l ls ih =>
      intro idx d f
      rw [List.foldl_cons, ih]
      by_cases h : d = l.domain ∧ f = fragmentOf l.url
      · simp [insertLink, h, List.filter_cons]
      · simp [insertLink, h, List.filter_cons]

theorem from_raw_data_eq_filter (raw : List Link) (d f : String) :
    from_raw_data raw d f =
      raw.filter (fun l => decide (d = l.domain ∧ f = fragmentOf l.url)) := by
  unfold from_raw_data
  rw [foldl_insertLink]
  simp

theorem mem_from_raw_data_inv (raw : List Link) (l : Link) (d f : String)
    (h : l ∈ from_raw_data raw d f) :
    l.domain = d ∧ fragmentOf l.url = f := by
  rw [from_raw_data_eq_filter] at h
  have hfl := List.of_mem_filter h
  simp only [decide_eq_true_eq] at hfl
  exact ⟨hfl.1.symm, hfl.2.symm⟩

/-- C4: every link stored under key `(domain, fragment)` in the built index
has that domain, and the fragment derived from its URL is that fragment. -/
theorem index_bucket_invariant (raw : List Link) (l : Link) (d f : String)
    (h : l ∈ from_raw_data raw d f) :
    l.domain = d ∧ fragmentOf l.url = f :=
  mem_from_raw_data_inv raw l d f h

/-- C4 witness: a concrete link is found in the bucket for its own domain
and fragment, and the theorem applies to it. -/
theorem index_bucket_invariant_witness :
    (Link.mk ("https://example.com/a#sec2") ("example.com") ("f.txt") 1 ∈
      from_raw_data
        [Link.mk ("https://example.com/a#sec2") ("example.com") ("f.txt") 1]
        ("example.com") ("sec2")) ∧
    ((Link.mk ("https://example.com/a#sec2") ("example.com") ("f.txt")
        1).domain = "example.com" ∧
      fragmentOf (("https://example.com/a#sec2") : String) = "sec2") :=
  ⟨by decide,
    index_bucket_invariant
      [Link.mk ("https://example.com/a#sec2") ("example.com") ("f.txt") 1]
      (Link.mk ("https://example.com/a#sec2") ("example.com") ("f.txt") 1)
      ("example.com") ("sec2") (by decide)⟩

/-- C3: the fragment a link is grouped under in the built index is the
substring of its URL after the last `#`, and is `""` when the URL contains
no `#`. -/
theorem index_fragment_after_last_hash (raw : List Link) (l : Link)
    (d f : String) (h : l ∈ from_raw_data raw d f) :
    f = fragment_spec l.url ∧ ('#' ∉ l.url.data → f = "") := by
  have hinv := mem_from_raw_data_inv raw l d f h
  have hspec := fragmentOf_eq_fragment_spec l.url
  constructor
  · rw [← hinv.2, hspec]
  · intro hn
    rw [← hinv.2, hspec, fragment_spec, if_neg hn]

/-- C3 witness: the link with URL `https://example.com/a#sec2` lands under
fragment `sec2` (the substring after the last `#`), and a URL without `#`
lands under fragment `""`; the theorem applies to the former. -/
theorem index_fragment_after_last_hash_witness :
    ("sec2" = fragment_spec (("https://example.com/a#sec2") : String)) ∧
    (from_raw_data
      [Link.mk ("https://example.com/b") ("example.com") ("f.txt") 2]
      ("example.com") ("") =
      [Link.mk ("https://example.com/b") ("example.com") ("f.txt") 2]) :=
  ⟨(index_fragment_after_last_hash
      [Link.mk ("https://example.com/a#sec2") ("example.com") ("f.txt") 1]
      (Link.mk ("https://example.com/a#sec2") ("example.com") ("f.txt") 1)
      ("example.com") ("sec2") (by decide)).1,
    by decide⟩

/-- C5: building the index from any permutation of the input collection
yields the same bucket membership for every key `(domain, fragment)`. -/
theorem index_perm_invariant (raw₁ raw₂ : List Link)
    (hperm : raw₁.Perm raw₂) (d f : String) (l : Link) :
    l ∈ from_raw_data raw₁ d f ↔ l ∈ from_raw_data raw₂ d f := by
  rw [from_raw_data_eq_filter, from_raw_data_eq_filter]
  exact (hperm.filter _).mem_iff

/-- C5 witness: two concrete links in swapped order give indexes with the
same bucket membership at their shared key. -/
theorem index_perm_invariant_witness :
    (([Link.mk ("https://a.com/#x") ("a.com") ("f") 1,
       Link.mk ("https://a.com/#y") ("a.com") ("g") 2] : List Link).Perm
      [Link.mk ("https://a.com/#y") ("a.com") ("g") 2,
       Link.mk ("https://a.com/#x") ("a.com") ("f") 1]) ∧
    (Link.mk ("https://a.com/#x") ("a.com") ("f") 1 ∈
        from_raw_data
          [Link.mk ("https://a.com/#x") ("a.com") ("f") 1,
           Link.mk ("https://a.com/#y") ("a.com") ("g") 2] ("a.com") ("x") ↔
      Link.mk ("https://a.com/#x") ("a.com") ("f") 1 ∈
        from_raw_data
          [Link.mk ("https://a.com/#y") ("a.com") ("g") 2,
           Link.mk ("https://a.com/#x") ("a.com") ("f") 1] ("a.com") ("x")) :=
  ⟨List.Perm.swap _ _ [],
    index_perm_invariant _ _ (List.Perm.swap _ _ []) ("a.com") ("x")
      (Link.mk ("https://a.com/#x") ("a.com") ("f") 1)⟩

theorem length_filter_add_length_filter_not {α : Type} (p : α → Bool) :
    ∀ (l : List α),
      (l.filter p).length + (l.filter (fun a => !(p a))).length =
        l.length := by
  intro l
  induction l with
  | nil => rfl
  | cons a l ih =>
      cases hpa : p a <;> simp [List.filter_cons, hpa] <;> omega

theorem sum_buckets_eq_length (key : Link → String × String) :
    ∀ (keys : List (String × String)) (raw : List Link), keys.Nodup →
      (∀ l ∈ raw, key l ∈ keys) →
      (keys.map
        (fun k => (raw.filter (fun l => decide (key l = k))).length)).sum =
        raw.length := by
  intro keys
  induction keys with
  | nil =>
      intro raw _ hall
      cases raw with
      | nil => rfl
      | cons a l =>
          exact absurd (hall a (List.mem_cons_self a l)) (List.not_mem_nil _)
  | cons k ks ih =>
      intro raw hnd hall
      have hkns : k ∉ ks := (List.nodup_cons.mp hnd).1
      rw [List.map_cons, List.sum_cons]
      have hrest : ∀ k' ∈ ks,
          ((raw.filter (fun l => !(decide (key l = k)))).filter
            (fun l => decide (key l = k'))).length =
          (raw.filter (fun l => decide (key l = k'))).length := by
        intro k' hk'
        rw [List.filter_filter]
        congr 1
        refine List.filter_congr ?_
        intro l _
        by_cases hl : key l = k'
        · have hk'k : k' ≠ k := fun hc => hkns (hc ▸ hk')
          simp [hl, hk'k]
        · simp [hl]
      have hcov : ∀ l ∈ raw.filter (fun l => !(decide (key l = k))),
          key l ∈ ks := by
        intro l hl
        have hmem := List.mem_of_mem_filter hl
        have hne := List.of_mem_filter hl
        simp only [Bool.not_eq_true', decide_eq_false_iff_not] at hne
        rcases List.mem_cons.mp (hall l hmem) with hc | hc
        · exact absurd hc hne
        · exact hc
      have hsum := ih (raw.filter (fun l => !(decide (key l = k))))
        hnd.of_cons hcov
      calc (raw.filter (fun l => decide (key l = k))).length +
            (ks.map (fun k' =>
              (raw.filter (fun l => decide (key l = k'))).length)).sum
          = (raw.filter (fun l => decide (key l = k))).length +
            (ks.map (fun k' =>
              ((raw.filter (fun l => !(decide (key l = k)))).filter
                (fun l => decide (key l = k'))).length)).sum := by
            congr 1
            congr 1
            exact (List.map_congr_left (fun k' hk' =>
              (hrest k' hk').symm))
        _ = (raw.filter (fun l => decide (key l = k))).length +
            (raw.filter (fun l => !(decide (key l = k)))).length := by
            rw [hsum]
        _ = raw.length :=
            length_filter_add_length_filter_not
              (fun l => decide (key l = k)) raw

/-- C10: building the index conserves the input links: summing the bucket
sizes over the index's keys gives exactly the length of the input
collection, and every key outside `indexKeys` has an empty bucket. -/
theorem index_conserves_links (raw : List Link) :
    (((indexKeys raw).map
        (fun k => (from_raw_data raw k.1 k.2).length)).sum = raw.length) ∧
    (∀ d f, (d, f) ∉ indexKeys raw → from_raw_data raw d f = []) := by
  constructor
  · have hkeys : (indexKeys raw).Nodup := List.nodup_dedup _
    have hcov : ∀ l ∈ raw, linkKey l ∈ indexKeys raw := by
      intro l hl
      rw [indexKeys, List.mem_dedup]
      exact List.mem_map_of_mem linkKey hl
    rw [← sum_buckets_eq_length linkKey (indexKeys raw) raw hkeys hcov]
    congr 1
    refine List.map_congr_left ?_
    intro k _
    rw [from_raw_data_eq_filter]
    congr 1
    refine List.filter_congr ?_
    intro l _
    refine decide_eq_decide.mpr ?_
    simp only [linkKey, Prod.ext_iff]
    constructor
    · rintro ⟨h1, h2⟩; exact ⟨h1.symm, h2.symm⟩
    · rintro ⟨h1, h2⟩; exact ⟨h1.symm, h2.symm⟩
  · intro d f hdf
    rw [from_raw_data_eq_filter]
    refine List.filter_eq_nil_iff.mpr ?_
    intro l hl hdec
    simp only [decide_eq_true_eq] at hdec
    apply hdf
    rw [indexKeys, List.mem_dedup]
    refine List.mem_map.mpr ⟨l, hl, ?_⟩
    simp [linkKey, hdec.1, hdec.2]

/-- C10 witness: two links sharing a bucket plus one in its own bucket sum
to three, the input length, and an unused key has an empty bucket. -/
theorem index_conserves_links_witness :
    (((indexKeys
        [Link.mk ("https://a.com/#x") ("a.com") ("f") 1,
         Link.mk ("https://a.com/p#x") ("a.com") ("g") 2,
         Link.mk ("https://b.com/") ("b.com") ("h") 3]).map
        (fun k => (from_raw_data
          [Link.mk ("https://a.com/#x") ("a.com") ("f") 1,
           Link.mk ("https://a.com/p#x") ("a.com") ("g") 2,
           Link.mk ("https://b.com/") ("b.com") ("h") 3] k.1 k.2).length)).sum
      = 3) ∧
    (from_raw_data
        [Link.mk ("https://a.com/#x") ("a.com") ("f") 1,
         Link.mk ("https://a.com/p#x") ("a.com") ("g") 2,
         Link.mk ("https://b.com/") ("b.com") ("h") 3] ("z.com") ("q") = []) :=
  ⟨(index_conserves_links
      [Link.mk ("https://a.com/#x") ("a.com") ("f") 1,
       Link.mk ("https://a.com/p#x") ("a.com") ("g") 2,
       Link.mk ("https://b.com/") ("b.com") ("h") 3]).1,
    (index_conserves_links
      [Link.mk ("https://a.com/#x") ("a.com") ("f") 1,
       Link.mk ("https://a.com/p#x") ("a.com") ("g") 2,
       Link.mk ("https://b.com/") ("b.com") ("h") 3]).2 ("z.com") ("q")
      (by decide)⟩

/-- Embeds `URLCrawler::find_urls_in_stream` (src/url_crawler.rs lines
79-97).  `stream` is the list of `BufRead::lines` results (`none` is a read
or decode error, skipped); `finder` is the `linkify` oracle.  Lines are
enumerated from 0 and each emitted URL is paired with `line_number + 1`. -/
def find_urls_in_stream (finder : String → List String)
    (stream : List (Option String)) : List (String × Nat) :=
  (stream.enum.filterMap (fun p =>
      p.2.map (fun l => (finder l).map (fun link => (link, p.1 + 1))))).flatten

/-- Modelled from the spec's words for comparison with
`find_urls_in_stream`: process the lines 1-indexed, emitting each line's
URL-shaped substrings in order, each keyed to its line number. -/
def scan_spec (finder : String → List String) :
    Nat → List String → List (String × Nat)
  | _, [] => []
  | n, l :: ls =>
      (finder l).map (fun u => (u, n)) ++ scan_spec finder (n + 1) ls

theorem find_urls_in_stream_enumFrom (finder : String → List String)
    (lines : List String) :
    ∀ n : Nat,
      (((lines.map some).enumFrom n).filterMap (fun p =>
          p.2.map (fun l =>
            (finder l).map (fun link => (link, p.1 + 1))))).flatten =
        scan_spec finder (n + 1) lines := by
  induction lines with
  | nil => intro n; rfl
  | cons l ls ih =>
      intro n
      rw [List.map_cons, List.enumFrom_cons, List.filterMap_cons]
      simp only [Option.map_some']
      rw [List.flatten_cons, ih (n + 1)]
      rfl

theorem scan_spec_eq_nil (finder : String → List String) :
    ∀ (lines : List String) (n : Nat), (∀ l ∈ lines, finder l = []) →
      scan_spec finder n lines = [] := by
  intro lines
  induction lines with
  | nil => intro n _; rfl
  | cons l ls ih =>
      intro n h
      rw [scan_spec, h l (List.mem_cons_self l ls),
        ih (n + 1) (fun x hx => h x (List.mem_cons_of_mem _ hx))]
      rfl

/-- C7: the scanner numbers lines from 1 and emits each line's URL-shaped
substrings (as found by the link finder, left to right) paired with that
line's number; empty input, or input without URL-shaped text, yields the
empty sequence. -/
theorem find_urls_in_stream_correct (finder : String → List String)
    (lines : List String) :
    find_urls_in_stream finder (lines.map some) = scan_spec finder 1 lines ∧
    find_urls_in_stream finder [] = [] ∧
    ((∀ l ∈ lines, finder l = []) →
      find_urls_in_stream finder (lines.map some) = []) := by
  have hmain : find_urls_in_stream finder (lines.map some) =
      scan_spec finder 1 lines := by
    unfold find_urls_in_stream
    rw [List.enum]
    exact find_urls_in_stream_enumFrom finder lines 0
  refine ⟨hmain, rfl, ?_⟩
  intro hempty
  rw [hmain, scan_spec_eq_nil finder lines 1 hempty]

/-- C7 witness: a finder seeing one URL on each of two lines produces the
two pairs with line numbers 1 and 2, and a finder seeing nothing produces
the empty sequence. -/
theorem find_urls_in_stream_correct_witness :
    find_urls_in_stream (fun l => if l = "a" then [("u1")] else [("u2")])
      ([("a"), ("b")].map some) =
      [(("u1"), 1), (("u2"), 2)] ∧
    find_urls_in_stream (fun _ => []) ([("a"), ("b")].map some) = [] :=
  ⟨by
    rw [(find_urls_in_stream_correct
      (fun l => if l = "a" then [("u1")] else [("u2")]) [("a"), ("b")]).1]
    decide,
   (find_urls_in_stream_correct (fun _ => []) [("a"), ("b")]).2.2
     (fun _ _ => rfl)⟩

/-- Embeds `Link::new` (src/url_crawler.rs lines 17-26): build a `Link`
from the tuple returned by `filter_domains`, with an empty default
filepath. -/
def Link.new (arg_tuple : String × String × Nat) : Link :=
  { url := arg_tuple.1, domain := arg_tuple.2.1, filepath := "",
    line_number := arg_tuple.2.2 }

/-- Embeds `URLCrawler::find_urls_in_file` (src/url_crawler.rs lines
66-77): scan the stream, filter each candidate through `filter_domains`,
build `Link`s and set their filepath. -/
def find_urls_in_file (finder : String → List String)
    (parseHost : String → Option String) (whitelist : List String)
    (filepath : String) (contents : List (Option String)) : List Link :=
  ((find_urls_in_stream finder contents).filterMap
      (fun p => filter_domains whitelist parseHost p.1 p.2)).map
    (fun t => { Link.new t with filepath := filepath })

/-- Embeds `URLCrawler::find` (src/url_crawler.rs lines 53-64): open each
file (dropping, via `filter_map` over `File::open(..).ok()`, the files that
cannot be opened), crawl each opened file, and concatenate the per-file
results.  `fs` is the file-system oracle described in the file header; the
`rayon` parallel iterator is order-preserving (`par_iter().collect()` on an
indexed iterator), so it is embedded as the sequential map it is equivalent
to. -/
def find (fs : String → Option (List (Option String)))
    (finder : String → List String) (parseHost : String → Option String)
    (whitelist : List String) (filepaths : List String) : List Link :=
  ((filepaths.filterMap (fun filepath =>
      (fs filepath).map (fun file => (filepath, file)))).map
    (fun pc => find_urls_in_file finder parseHost whitelist pc.1 pc.2)).flatten

/-- Embeds `URLCrawler::find_urls` with `URLCrawler::new`
(src/url_crawler.rs lines 34-51): lowercase the whitelist once, then
crawl. -/
def find_urls (fs : String → Option (List (Option String)))
    (finder : String → List String) (parseHost : String → Option String)
    (filepaths : List String) (whitelist_domains : List String) : List Link :=
  find fs finder parseHost (whitelist_domains.map lowercase) filepaths

/-- C8: a file that cannot be opened is skipped silently and contributes
no links: `find_urls` over the full path list equals `find_urls` over the
sublist of openable paths. -/
theorem find_urls_skips_unopenable (fs : String → Option (List (Option String)))
    (finder : String → List String) (parseHost : String → Option String)
    (filepaths : List String) (whitelist_domains : List String) :
    find_urls fs finder parseHost filepaths whitelist_domains =
      find_urls fs finder parseHost
        (filepaths.filter (fun fp => (fs fp).isSome)) whitelist_domains := by
  unfold find_urls find
  congr 2
  induction filepaths with
  | nil => rfl
  | cons fp fps ih =>
      cases hfs : fs fp with
      | none => simp [List.filterMap_cons, List.filter_cons, hfs, ih]
      | some c => simp [List.filterMap_cons, List.filter_cons, hfs, ih]

/-- Embeds `OsStr::eq_ignore_ascii_case` as used in `gather_files`
(src/util.rs line 32): equality after ASCII lowercasing (`Char.toLower`
lowercases exactly the ASCII uppercase letters). -/
def eq_ignore_ascii_case (a b : String) : Bool :=
  (a.data.map Char.toLower) == (b.data.map Char.toLower)

/-- Embeds the extension-filter closure of `gather_files` (src/util.rs
lines 26-35): pass when the configured extension list is empty, or when
some entry equals the file's extension ASCII-case-insensitively.  `ext`
models `Path::extension()` from the Rust standard library (`none` when the
file has no extension; the value carries no leading dot), defaulted to
`""` by `unwrap_or_default`. -/
def extension_passes (extensions : List String) (ext : Option String) : Bool :=
  extensions.isEmpty ||
    extensions.any (fun e => eq_ignore_ascii_case (ext.getD ("")) e)

/-- C9: with an empty configured extension list every file passes; with a
non-empty list a file passes iff its extension (compared without a leading
dot) matches some entry ASCII-case-insensitively. -/
theorem extension_filter_correct (extensions : List String)
    (ext : Option String) :
    (extensions = [] → extension_passes extensions ext = true) ∧
    (extensions ≠ [] →
      (extension_passes extensions ext = true ↔
        ∃ e ∈ extensions, eq_ignore_ascii_case (ext.getD ("")) e = true)) := by
  constructor
  · rintro rfl; rfl
  · intro hne
    obtain ⟨x, xs, rfl⟩ := List.exists_cons_of_ne_nil hne
    simp [extension_passes, List.any_eq_true]

/-- C9 witness: a file with extension `rs` passes the filter `["RS"]`
(case-insensitive match), and every file passes the empty filter. -/
theorem extension_filter_correct_witness :
    ((["RS"] : List String) ≠ []) ∧
    (extension_passes ["RS"] (some ("rs")) = true ↔
      ∃ e ∈ (["RS"] : List String),
        eq_ignore_ascii_case ((some ("rs")).getD ("")) e = true) ∧
    extension_passes [] (some ("rs")) = true :=
  ⟨by decide,
   (extension_filter_correct ["RS"] (some ("rs"))).2 (by decide),
   (extension_filter_correct [] (some ("rs"))).1 rfl⟩

end SpecMonkey
